import Mathlib

/-!
Shallow embedding of the chord-dht-consistency repository (a Chord-style
distributed key-value store with vector-clock versioning, quorum reads and
read repair), together with theorems checking the natural-language
specification against the code.

Python dictionaries are embedded as association lists (first binding wins,
assignment replaces the first matching binding or appends).  Vector clocks
(`consistency/vector_clock.py`) are dictionaries from node id to counter with
missing entries read as zero.
-/

namespace ChordSpec

/-- Association-list lookup: Python `d[k]` / `d.get(k)`; first binding wins. -/
def alGet {κ ν : Type} [DecidableEq κ] : List (κ × ν) → κ → Option ν
  | [], _ => none
  | (k, v) :: rest, k' => if k' = k then some v else alGet rest k'

/-- Association-list assignment: Python `d[k] = v`; replaces the first
binding of `k`, or appends a fresh binding when `k` is absent. -/
def alSet {κ ν : Type} [DecidableEq κ] : List (κ × ν) → κ → ν → List (κ × ν)
  | [], k, v => [(k, v)]
  | (k0, v0) :: rest, k, v =>
    if k = k0 then (k0, v) :: rest else (k0, v0) :: alSet rest k v

/-- Association-list deletion: Python `del d[k]` (removes every binding of
`k`; a Python dict holds at most one). -/
def alErase {κ ν : Type} [DecidableEq κ] : List (κ × ν) → κ → List (κ × ν)
  | [], _ => []
  | (k0, v0) :: rest, k =>
    if k0 = k then alErase rest k else (k0, v0) :: alErase rest k

/-! ## Vector clocks (`consistency/vector_clock.py`)

`VectorClock.clock` is a Python dict `node_id -> counter`; we embed it as an
association list of naturals.  `vcGet c k` is `clock.get(k, 0)`. -/

abbrev Clock := List (Nat × Nat)

/-- `clock.get(node_id, 0)`: the counter stored for a node, zero if absent. -/
def vcGet (c : Clock) (k : Nat) : Nat := (alGet c k).getD 0

/-- The keys of the clock dictionary (`clock.keys()`). -/
def keysOf (c : Clock) : List Nat := c.map Prod.fst

/-- `VectorClock.increment(node_id)`:
`clock[node_id] = clock.get(node_id, 0) + 1`. -/
def increment (c : Clock) (node_id : Nat) : Clock :=
  alSet c node_id (vcGet c node_id + 1)

/-- `VectorClock.update(other)`: element-wise maximum, iterating over the
other clock's entries: `clock[k] = max(clock.get(k, 0), t)`. -/
def update (c other : Clock) : Clock :=
  other.foldl (fun acc kv => alSet acc kv.1 (max (vcGet acc kv.1) kv.2)) c

/-- `VectorClock.happens_before(other)`: over the union of the key sets,
all entries `≤` and at least one entry `<`. -/
def happens_before (a b : Clock) : Bool :=
  let all_nodes := keysOf a ++ keysOf b
  (all_nodes.all fun k => vcGet a k ≤ vcGet b k) &&
    (all_nodes.any fun k => vcGet a k < vcGet b k)

/-- `VectorClock.concurrent_with(other)`: neither happens before the other. -/
def concurrent_with (a b : Clock) : Bool :=
  !happens_before a b && !happens_before b a

/-- `VectorClock.dominates(other)`: every entry of `other` is `≤` the
corresponding entry of `self`, over the union of the key sets. -/
def dominates (a b : Clock) : Bool :=
  (keysOf a ++ keysOf b).all fun k => vcGet b k ≤ vcGet a k

/-- `VectorClock.__eq__`: equality over the union of the key sets, missing
entries read as zero. -/
def vcEq (a b : Clock) : Bool :=
  (keysOf a ++ keysOf b).all fun k => vcGet a k = vcGet b k

/-! ## Local storage (`chord/storage.py`)

`ChordStorage` keeps a primary store `key -> (value, version)` and a backup
store `primary_node_id -> key -> (value, version)`.  The value type is the
parameter `α` (Python values are untyped). -/

/-- State of `ChordStorage` (in-memory part; persistence is a mirror). -/
structure Storage (α : Type) where
  node_id : Nat
  primary_store : List (String × α × Clock)
  backup_store : List (Nat × List (String × α × Clock))

/-- `ChordStorage.put(key, value, version)`: when no version is supplied,
copy the existing primary version (empty if absent) and increment this
node's counter; store and return the version. -/
def Storage.put {α : Type} (s : Storage α) (key : String) (value : α)
    (version : Option Clock) : Storage α × Clock :=
  let ver : Clock :=
    match version with
    | some v => v
    | none =>
      match alGet s.primary_store key with
      | some (_, old_version) => increment old_version s.node_id
      | none => increment [] s.node_id
  ({ s with primary_store := alSet s.primary_store key (value, ver) }, ver)

/-- `ChordStorage.put_backup(key, value, version, for_node_id)`: file the
entry under the bucket of the primary node (creating the bucket when
absent) and return the version unchanged. -/
def Storage.put_backup {α : Type} (s : Storage α) (key : String) (value : α)
    (version : Clock) (for_node_id : Nat) : Storage α × Clock :=
  let bucket := (alGet s.backup_store for_node_id).getD []
  ({ s with
      backup_store :=
        alSet s.backup_store for_node_id (alSet bucket key (value, version)) },
    version)

/-- `ChordStorage.get_backup(key, for_node_id)`. -/
def Storage.get_backup {α : Type} (s : Storage α) (key : String)
    (for_node_id : Nat) : Option (α × Clock) :=
  match alGet s.backup_store for_node_id with
  | some bucket => alGet bucket key
  | none => none

/-- `handle_put_replica` in `main.py` (version reconciliation part): when a
backup for `(primary_node_id, key)` already exists, merge it with the
incoming version (element-wise max) and increment this node's counter;
otherwise increment this node's counter on top of the incoming version;
then store the result via `put_backup`. -/
def handle_put_replica {α : Type} (s : Storage α) (key : String) (value : α)
    (incoming : Clock) (primary_node_id : Nat) : Storage α × Clock :=
  match s.get_backup key primary_node_id with
  | some (_, existing_version) =>
    let ver := increment (update existing_version incoming) s.node_id
    s.put_backup key value ver primary_node_id
  | none =>
    let ver := increment incoming s.node_id
    s.put_backup key value ver primary_node_id

/-- One step of the promotion loop in
`ChordStorage.transfer_backups_to_primary`: promote a backup entry into the
primary store when the key is absent or the backup's version strictly
dominates (`version > current_version`, i.e. `current.happens_before(version)`). -/
def promoteStep {α : Type} (ps : List (String × α × Clock))
    (kv : String × α × Clock) : List (String × α × Clock) :=
  match alGet ps kv.1 with
  | none => alSet ps kv.1 kv.2
  | some (_, current_version) =>
    if happens_before current_version kv.2.2 then alSet ps kv.1 kv.2 else ps

/-- `ChordStorage.transfer_backups_to_primary(for_node_id)`: promote every
backup filed under that primary into the primary store (keeping the local
entry unless the backup strictly dominates), then delete the bucket. -/
def Storage.transfer_backups_to_primary {α : Type} (s : Storage α)
    (for_node_id : Nat) : Storage α :=
  match alGet s.backup_store for_node_id with
  | none => s
  | some bucket =>
    { s with
        primary_store := bucket.foldl promoteStep s.primary_store
        backup_store := alErase s.backup_store for_node_id }

/-- The version stored in the backup bucket of `p` for `key`, empty when no
such backup exists. -/
def prevBackupVersion {α : Type} (s : Storage α) (key : String) (p : Nat) :
    Clock :=
  match s.get_backup key p with
  | some (_, w) => w
  | none => []

/-- The version stored in the primary store for `key`, empty when absent. -/
def prevPrimaryVersion {α : Type} (s : Storage α) (key : String) : Clock :=
  match alGet s.primary_store key with
  | some (_, w) => w
  | none => []

/-- Iterated `put(key, value, None)` on the same storage: returns the list
of versions produced in order. -/
def putSeq {α : Type} (s : Storage α) (key : String) :
    List α → Storage α × List Clock
  | [] => (s, [])
  | v :: vs =>
    let r := s.put key v none
    let rest := putSeq r.1 key vs
    (rest.1, r.2 :: rest.2)

/-- The primary entry resulting from promoting a backup entry `(v, ver)`
for `key`: taken whole when the key is absent or the backup strictly
dominates, else the local entry is kept. -/
def promotedEntry {α : Type} (s : Storage α) (key : String) (v : α)
    (ver : Clock) : α × Clock :=
  match alGet s.primary_store key with
  | none => (v, ver)
  | some (w, cur) =>
    if happens_before cur ver then (v, ver) else (w, cur)

/-! ## Version resolution (`get_latest_version` in
`consistency/vector_clock.py`) -/

/-- The inner loop of `get_latest_version`: a version is dominated when some
other version in the list does not happen before it while it happens before
that other version (the first test is the loop's `continue` guard). -/
def isDominatedIn (v : Clock) (versions : List Clock) : Bool :=
  versions.any fun other => !happens_before other v && happens_before v other

/-- The candidate (maximal) versions gathered by `get_latest_version`. -/
def candidatesOf (versions : List Clock) : List Clock :=
  versions.filter fun v => !isDominatedIn v versions

/-- `get_latest_version(versions)`: `None` on empty input, the sole element
of a singleton, otherwise the unique candidate if there is exactly one and
`None` (conflict) if not. -/
def get_latest_version (versions : List Clock) : Option Clock :=
  match versions with
  | [] => none
  | [v] => some v
  | v1 :: v2 :: rest =>
    match candidatesOf (v1 :: v2 :: rest) with
    | [c] => some c
    | _ => none

/-- A version is maximal in a list when it happens before no element. -/
def MaximalIn (v : Clock) (versions : List Clock) : Prop :=
  ∀ u ∈ versions, happens_before v u = false

/-! ## Ring membership (`chord/routing.py`) and quorum reads
(`consistency/quorum.py`) -/

/-- `NodeInfo`: node id plus address; Python equality compares ids only,
which is modelled where relevant by comparing `node_id`. -/
structure NodeInfo where
  node_id : Nat
  address : String
deriving DecidableEq, Repr

/-- The winning version of `quorum_get`: `get_latest_version`, falling back
to the first received version when that reports a conflict. -/
def winning_version (versions : List Clock) : Option Clock :=
  match get_latest_version versions with
  | some v => some v
  | none => versions.head?

/-- The `latest_value` selection loop of `quorum_get`: the value of the
last read whose version equals the winning version (Python `==`). -/
def latest_value_of {α : Type} (reads : List (NodeInfo × α × Clock))
    (latest : Clock) : Option α :=
  reads.foldl (fun acc r => if vcEq r.2.2 latest then some r.2.1 else acc) none

/-- The `stale_replicas` gathered by `quorum_get`: every replica whose
returned version differs (Python `!=`) from the winning version. -/
def stale_replicas_of {α : Type} (reads : List (NodeInfo × α × Clock))
    (latest : Clock) : List NodeInfo :=
  (reads.filter fun r => !vcEq r.2.2 latest).map fun r => r.1

/-- Core of `QuorumManager.quorum_get` after the responses `reads` are
gathered: fail when fewer than `read_quorum` responses, otherwise resolve
the winning version, select the value, and mark the stale replicas that
read repair will overwrite. -/
def quorum_read_result {α : Type} (read_quorum : Nat)
    (reads : List (NodeInfo × α × Clock)) :
    Option (Option α × Clock × List NodeInfo) :=
  if reads.length < read_quorum then none
  else
    match winning_version (reads.map fun r => r.2.2) with
    | none => none
    | some latest =>
      some (latest_value_of reads latest, latest, stale_replicas_of reads latest)

/-! ## Message dispatch (`communication/network.py`, `_dispatch_message`) -/

/-- Wire message envelope; the data payload is a string dictionary (enough
to express the ERROR payload `{'error': text}`). -/
structure Message where
  msg_type : String
  sender_id : Nat
  sender_address : String
  msg_id : String
  data : List (String × String)
deriving DecidableEq, Repr

/-- `create_error_msg` in `communication/message.py`. -/
def create_error_msg (sender_id : Nat) (sender_addr : String)
    (error : String) (msg_id : String) : Message :=
  { msg_type := "error"
    sender_id := sender_id
    sender_address := sender_addr
    msg_id := msg_id
    data := [("error", error)] }

/-- `NetworkManager._dispatch_message`: a message whose id matches a
pending request resolves that future and produces no reply; otherwise the
handler registered for the message type runs — `Except.error e` models a
handler raising an exception with text `e`, converted to an ERROR reply —
and when no handler is registered, no reply is produced (the dispatcher
only logs a warning). -/
def dispatch_message (node_id : Nat) (address : String)
    (pending : List String)
    (handlers : List (String × (Message → Except String (Option Message))))
    (msg : Message) : Option Message :=
  if msg.msg_id ∈ pending then none
  else
    match alGet handlers msg.msg_type with
    | some handler =>
      match handler msg with
      | Except.ok response => response
      | Except.error e => some (create_error_msg node_id address e msg.msg_id)
    | none => none

/-! ## Routing with full ring knowledge
(`FingerTable.find_successor_from_all`, `FingerTable.get_n_successors`) -/

/-- The scan loop of `find_successor_from_all`: first node in list order
whose id is `≥` the identifier. -/
def findFirstGE : List NodeInfo → Nat → Option NodeInfo
  | [], _ => none
  | node :: rest, identifier =>
    if identifier ≤ node.node_id then some node else findFirstGE rest identifier

/-- `FingerTable.find_successor_from_all(identifier)`: `None` when no nodes
are known; otherwise the first node with `node_id ≥ identifier`, wrapping
around to the first node of the list. -/
def find_successor_from_all (all_nodes : List NodeInfo) (identifier : Nat) :
    Option NodeInfo :=
  match all_nodes with
  | [] => none
  | n0 :: rest =>
    match findFirstGE (n0 :: rest) identifier with
    | some node => some node
    | none => some n0

/-- Python `list.index` under `NodeInfo.__eq__` (id comparison): index of
the first node with the target's id, `None` (a raised `ValueError`) when
absent. -/
def indexOfNode : List NodeInfo → NodeInfo → Option Nat
  | [], _ => none
  | x :: rest, target =>
    if x.node_id = target.node_id then some 0
    else (indexOfNode rest target).map (· + 1)

/-- `FingerTable.get_n_successors(identifier, n)`: locate the responsible
node, then walk `min n N` positions forward from its index with wraparound
(the `none` index arm mirrors the `except ValueError: return [responsible]`
branch). -/
def get_n_successors (all_nodes : List NodeInfo) (identifier n : Nat) :
    List NodeInfo :=
  if all_nodes.isEmpty || n = 0 then []
  else
    match find_successor_from_all all_nodes identifier with
    | none => []
    | some responsible =>
      match indexOfNode all_nodes responsible with
      | none => [responsible]
      | some start_idx =>
        (List.range (min n all_nodes.length)).map fun i =>
          all_nodes.getD ((start_idx + i) % all_nodes.length) responsible

/-- Clockwise distance from `identifier` to `node_id` on the mod-`2^m`
circle: `(node_id - identifier) mod 2^m`. -/
def ringDist (m identifier node_id : Nat) : Nat :=
  (node_id + 2 ^ m - identifier) % 2 ^ m

/-! ## Vector-clock serialization (`to_dict` / `from_dict`) -/

/-- Python `str` of a natural number: its decimal digits, most significant
first (`Nat.digits` lists them least significant first; `str(0)` is the
single digit `0`). -/
def pyStr (n : Nat) : List Nat :=
  if n = 0 then [0] else (Nat.digits 10 n).reverse

/-- Python `int` of a decimal digit string. -/
def pyInt (ds : List Nat) : Nat :=
  ds.foldl (fun acc d => 10 * acc + d) 0

/-- `VectorClock.to_dict`: stringify the integer keys for JSON. -/
def to_dict (c : Clock) : List (List Nat × Nat) :=
  c.map fun kv => (pyStr kv.1, kv.2)

/-- `VectorClock.from_dict`: re-parse string keys to integers; the
`VectorClock` constructor normalizes keys again, which is the identity on
integers. -/
def from_dict (d : List (List Nat × Nat)) : Clock :=
  d.map fun kv => (pyInt kv.1, kv.2)

theorem alGet_alSet_self {κ ν : Type} [DecidableEq κ]
    (l : List (κ × ν)) (k : κ) (v : ν) : alGet (alSet l k v) k = some v := by
  induction l with
  | nil => simp [alGet, alSet]
  | cons hd tl ih =>
    obtain ⟨k0, v0⟩ := hd
    by_cases h : k = k0
    · simp [alGet, alSet, h]
    · simp [alGet, alSet, h, ih]

theorem alGet_alSet_ne {κ ν : Type} [DecidableEq κ]
    (l : List (κ × ν)) (k k' : κ) (v : ν) (h : k' ≠ k) :
    alGet (alSet l k v) k' = alGet l k' := by
  induction l with
  | nil => simp [alGet, alSet, h]
  | cons hd tl ih =>
    obtain ⟨k0, v0⟩ := hd
    by_cases hk : k = k0
    · subst hk
      simp [alGet, alSet, h]
    · by_cases hk' : k' = k0 <;> simp [alGet, alSet, hk, hk', ih]

theorem alGet_alErase_self {κ ν : Type} [DecidableEq κ]
    (l : List (κ × ν)) (k : κ) : alGet (alErase l k) k = none := by
  induction l with
  | nil => simp [alGet, alErase]
  | cons hd tl ih =>
    obtain ⟨k0, v0⟩ := hd
    by_cases h : k0 = k
    · simpa [alErase, h] using ih
    · have hne : k ≠ k0 := fun hh => h hh.symm
      simpa [alErase, h, alGet, hne] using ih

theorem alGet_alErase_ne {κ ν : Type} [DecidableEq κ]
    (l : List (κ × ν)) (k k' : κ) (h : k' ≠ k) :
    alGet (alErase l k) k' = alGet l k' := by
  induction l with
  | nil => simp [alGet, alErase]
  | cons hd tl ih =>
    obtain ⟨k0, v0⟩ := hd
    by_cases hk : k0 = k
    · subst hk
      simp [alErase, alGet, h, ih]
    · by_cases hk' : k' = k0 <;> simp [alErase, alGet, hk, hk', ih]

theorem vcGet_eq_zero_of_not_mem (c : Clock) (k : Nat)
    (h : k ∉ keysOf c) : vcGet c k = 0 := by
  induction c with
  | nil => rfl
  | cons hd tl ih =>
    obtain ⟨k0, v0⟩ := hd
    simp only [keysOf, List.map_cons, List.mem_cons] at h
    push_neg at h
    simp only [vcGet, alGet, h.1, if_neg]
    exact ih h.2

theorem happens_before_iff (a b : Clock) :
    happens_before a b = true ↔
      (∀ k, vcGet a k ≤ vcGet b k) ∧ (∃ k, vcGet a k < vcGet b k) := by
  simp only [happens_before, Bool.and_eq_true, List.all_eq_true,
    List.any_eq_true, decide_eq_true_eq]
  constructor
  · rintro ⟨hall, k, hk, hlt⟩
    refine ⟨fun k' => ?_, ⟨k, hlt⟩⟩
    by_cases hmem : k' ∈ keysOf a ++ keysOf b
    · exact hall k' hmem
    · rw [List.mem_append] at hmem
      push_neg at hmem
      rw [vcGet_eq_zero_of_not_mem a k' hmem.1,
        vcGet_eq_zero_of_not_mem b k' hmem.2]
  · rintro ⟨hall, k, hlt⟩
    refine ⟨fun k' _ => hall k', ⟨k, ?_, hlt⟩⟩
    rw [List.mem_append]
    right
    by_contra hmem
    rw [vcGet_eq_zero_of_not_mem b k hmem] at hlt
    omega

theorem dominates_iff (a b : Clock) :
    dominates a b = true ↔ ∀ k, vcGet b k ≤ vcGet a k := by
  simp only [dominates, List.all_eq_true, decide_eq_true_eq]
  constructor
  · intro hall k
    by_cases hmem : k ∈ keysOf a ++ keysOf b
    · exact hall k hmem
    · rw [List.mem_append] at hmem
      push_neg at hmem
      rw [vcGet_eq_zero_of_not_mem a k hmem.1,
        vcGet_eq_zero_of_not_mem b k hmem.2]
  · intro hall k _
    exact hall k

theorem vcEq_iff (a b : Clock) :
    vcEq a b = true ↔ ∀ k, vcGet a k = vcGet b k := by
  simp only [vcEq, List.all_eq_true, decide_eq_true_eq]
  constructor
  · intro hall k
    by_cases hmem : k ∈ keysOf a ++ keysOf b
    · exact hall k hmem
    · rw [List.mem_append] at hmem
      push_neg at hmem
      rw [vcGet_eq_zero_of_not_mem a k hmem.1,
        vcGet_eq_zero_of_not_mem b k hmem.2]
  · intro hall k _
    exact hall k

theorem vcGet_alSet (c : Clock) (k j v : Nat) :
    vcGet (alSet c k v) j = if j = k then v else vcGet c j := by
  by_cases h : j = k
  · subst h
    simp [vcGet, alGet_alSet_self]
  · simp [vcGet, alGet_alSet_ne c k j v h, h]

theorem vcGet_increment (c : Clock) (n j : Nat) :
    vcGet (increment c n) j = if j = n then vcGet c n + 1 else vcGet c j := by
  simp [increment, vcGet_alSet]

theorem vcGet_update (c o : Clock) (hnd : (keysOf o).Nodup) (k : Nat) :
    vcGet (update c o) k = max (vcGet c k) (vcGet o k) := by
  induction o generalizing c with
  | nil => simp [update, vcGet, alGet]
  | cons hd tl ih =>
    obtain ⟨k0, t0⟩ := hd
    simp only [keysOf, List.map_cons, List.nodup_cons] at hnd
    have step : update c ((k0, t0) :: tl)
        = update (alSet c k0 (max (vcGet c k0) t0)) tl := rfl
    rw [step, ih _ hnd.2]
    by_cases h : k = k0
    · subst h
      have htl : vcGet tl k = 0 := vcGet_eq_zero_of_not_mem tl k hnd.1
      rw [vcGet_alSet, if_pos rfl, htl]
      simp only [vcGet, alGet, if_pos rfl]
      simp [Option.getD]
    · rw [vcGet_alSet, if_neg h]
      simp only [vcGet, alGet]
      rw [if_neg h]

theorem happens_before_irrefl (a : Clock) : happens_before a a = false := by
  by_contra h
  rw [Bool.not_eq_false, happens_before_iff] at h
  obtain ⟨-, k, hk⟩ := h
  omega

theorem happens_before_trans {a b c : Clock}
    (hab : happens_before a b = true) (hbc : happens_before b c = true) :
    happens_before a c = true := by
  rw [happens_before_iff] at hab hbc ⊢
  obtain ⟨hle1, k1, hk1⟩ := hab
  obtain ⟨hle2, _, _⟩ := hbc
  exact ⟨fun k => le_trans (hle1 k) (hle2 k),
    ⟨k1, lt_of_lt_of_le hk1 (hle2 k1)⟩⟩

theorem happens_before_asymm {a b : Clock}
    (hab : happens_before a b = true) : happens_before b a = false := by
  by_contra h
  rw [Bool.not_eq_false] at h
  have := happens_before_trans hab h
  rw [happens_before_irrefl] at this
  exact Bool.false_ne_true this

theorem dominates_refl (a : Clock) : dominates a a = true := by
  rw [dominates_iff]
  intro k
  exact le_refl _

theorem dominates_of_happens_before {a b : Clock}
    (h : happens_before a b = true) : dominates b a = true := by
  rw [happens_before_iff] at h
  rw [dominates_iff]
  exact h.1

theorem dominates_of_vcEq {a b : Clock} (h : vcEq a b = true) :
    dominates a b = true := by
  rw [vcEq_iff] at h
  rw [dominates_iff]
  intro k
  rw [h k]

theorem not_vcEq_of_happens_before {a b : Clock}
    (h : happens_before a b = true) : vcEq a b = false := by
  by_contra hc
  rw [Bool.not_eq_false, vcEq_iff] at hc
  rw [happens_before_iff] at h
  obtain ⟨-, k, hk⟩ := h
  rw [hc k] at hk
  omega

theorem get_backup_put_backup_self {α : Type} (s : Storage α) (key : String)
    (value : α) (ver : Clock) (p : Nat) :
    (s.put_backup key value ver p).1.get_backup key p = some (value, ver) := by
  simp [Storage.put_backup, Storage.get_backup, alGet_alSet_self]

/-- C1 (Backup-Dominance).  After `handle_put_replica` on node `n` with key
`k`, value `v`, incoming version `V` and primary id `p`, the stored backup
version `W` is the element-wise maximum of the previously stored backup
version for `(p, k)` (empty if none) and `V`, incremented once at `n`;
consequently `V` happens before `W` (strict dominance), and `W`'s entry for
`n` strictly exceeds the previous version's entry for `n`. -/
theorem put_replica_backup_dominance {α : Type} (s : Storage α) (key : String)
    (value : α) (V : Clock) (p : Nat) (hV : (keysOf V).Nodup) :
    (handle_put_replica s key value V p).1.get_backup key p
        = some (value, (handle_put_replica s key value V p).2) ∧
    (∀ k, vcGet (handle_put_replica s key value V p).2 k
        = (if k = s.node_id then 1 else 0)
            + max (vcGet (prevBackupVersion s key p) k) (vcGet V k)) ∧
    happens_before V (handle_put_replica s key value V p).2 = true ∧
    vcGet (prevBackupVersion s key p) s.node_id
      < vcGet (handle_put_replica s key value V p).2 s.node_id := by
  have hpoint : ∀ k, vcGet (handle_put_replica s key value V p).2 k
      = (if k = s.node_id then 1 else 0)
          + max (vcGet (prevBackupVersion s key p) k) (vcGet V k) := by
    intro k
    unfold handle_put_replica prevBackupVersion
    cases hgb : s.get_backup key p with
    | some pair =>
      obtain ⟨w0, existing⟩ := pair
      simp only [Storage.put_backup]
      rw [vcGet_increment]
      simp only [vcGet_update _ _ hV]
      by_cases hk : k = s.node_id <;> simp [hk] <;> omega
    | none =>
      simp only [Storage.put_backup]
      rw [vcGet_increment]
      have h0 : ∀ j, vcGet ([] : Clock) j = 0 := fun _ => rfl
      by_cases hk : k = s.node_id <;> simp [hk, h0] <;> omega
  refine ⟨?_, hpoint, ?_, ?_⟩
  · unfold handle_put_replica
    cases hgb : s.get_backup key p with
    | some pair =>
      obtain ⟨w0, existing⟩ := pair
      exact get_backup_put_backup_self s key value _ p
    | none =>
      exact get_backup_put_backup_self s key value _ p
  · rw [happens_before_iff]
    constructor
    · intro k
      rw [hpoint k]
      by_cases hk : k = s.node_id <;> simp [hk] <;> omega
    · refine ⟨s.node_id, ?_⟩
      rw [hpoint s.node_id]
      simp
      omega
  · rw [hpoint s.node_id]
    simp
    omega

/-- Witness for `put_replica_backup_dominance` at a concrete input. -/
theorem put_replica_backup_dominance_witness :
    (keysOf [(1, 2)]).Nodup ∧
    ((handle_put_replica (⟨7, [], []⟩ : Storage Nat) "k" 0 [(1, 2)] 3).1.get_backup
          "k" 3
        = some (0, (handle_put_replica (⟨7, [], []⟩ : Storage Nat) "k" 0 [(1, 2)] 3).2) ∧
      (∀ k, vcGet (handle_put_replica (⟨7, [], []⟩ : Storage Nat) "k" 0 [(1, 2)] 3).2 k
          = (if k = (⟨7, [], []⟩ : Storage Nat).node_id then 1 else 0)
              + max (vcGet (prevBackupVersion (⟨7, [], []⟩ : Storage Nat) "k" 3) k)
                  (vcGet [(1, 2)] k)) ∧
      happens_before [(1, 2)]
          (handle_put_replica (⟨7, [], []⟩ : Storage Nat) "k" 0 [(1, 2)] 3).2 = true ∧
      vcGet (prevBackupVersion (⟨7, [], []⟩ : Storage Nat) "k" 3)
          (⟨7, [], []⟩ : Storage Nat).node_id
        < vcGet (handle_put_replica (⟨7, [], []⟩ : Storage Nat) "k" 0 [(1, 2)] 3).2
            (⟨7, [], []⟩ : Storage Nat).node_id) :=
  ⟨by decide,
    put_replica_backup_dominance (⟨7, [], []⟩ : Storage Nat) "k" 0 [(1, 2)] 3
      (by decide)⟩

theorem put_none_version_point {α : Type} (s : Storage α) (key : String)
    (value : α) (k : Nat) :
    vcGet (s.put key value none).2 k
      = if k = s.node_id then vcGet (prevPrimaryVersion s key) k + 1
        else vcGet (prevPrimaryVersion s key) k := by
  unfold Storage.put prevPrimaryVersion
  cases hg : alGet s.primary_store key with
  | some pair =>
    obtain ⟨w0, old⟩ := pair
    simp only
    rw [vcGet_increment]
    by_cases hk : k = s.node_id
    · subst hk
      simp
    · simp [hk]
  | none =>
    simp only
    rw [vcGet_increment]
    have h0 : ∀ j, vcGet ([] : Clock) j = 0 := fun _ => rfl
    by_cases hk : k = s.node_id <;> simp [hk, h0]

theorem put_none_happens_before {α : Type} (s : Storage α) (key : String)
    (value : α) :
    happens_before (prevPrimaryVersion s key) (s.put key value none).2
      = true := by
  rw [happens_before_iff]
  constructor
  · intro k
    rw [put_none_version_point]
    by_cases hk : k = s.node_id <;> simp [hk]
  · refine ⟨s.node_id, ?_⟩
    rw [put_none_version_point]
    simp

theorem prevPrimaryVersion_after_put {α : Type} (s : Storage α) (key : String)
    (value : α) (version : Option Clock) :
    prevPrimaryVersion (s.put key value version).1 key
      = (s.put key value version).2 := by
  unfold prevPrimaryVersion Storage.put
  simp [alGet_alSet_self]

theorem node_id_after_put {α : Type} (s : Storage α) (key : String)
    (value : α) (version : Option Clock) :
    (s.put key value version).1.node_id = s.node_id := rfl

theorem putSeq_all_above {α : Type} (key : String) :
    ∀ (vs : List α) (s : Storage α) (w : Clock),
      w ∈ (putSeq s key vs).2 →
      happens_before (prevPrimaryVersion s key) w = true := by
  intro vs
  induction vs with
  | nil => intro s w hw; simp [putSeq] at hw
  | cons v vs ih =>
    intro s w hw
    simp only [putSeq, List.mem_cons] at hw
    rcases hw with hw | hw
    · subst hw
      exact put_none_happens_before s key v
    · have h1 := ih (s.put key v none).1 w hw
      rw [prevPrimaryVersion_after_put] at h1
      exact happens_before_trans (put_none_happens_before s key v) h1

/-- C9 (VC-Monotone).  `put(key, value)` with no version supplied stores and
returns the previous primary version of `key` (empty if absent) with this
node's counter incremented by exactly one; hence the new version strictly
dominates the prior one, and iterating such puts yields a sequence of
versions strictly increasing in happens-before order. -/
theorem put_fresh_version_monotone {α : Type} (s : Storage α) (key : String)
    (value : α) :
    alGet (s.put key value none).1.primary_store key
        = some (value, (s.put key value none).2) ∧
    (∀ k, vcGet (s.put key value none).2 k
        = if k = s.node_id then vcGet (prevPrimaryVersion s key) k + 1
          else vcGet (prevPrimaryVersion s key) k) ∧
    happens_before (prevPrimaryVersion s key) (s.put key value none).2
        = true ∧
    (∀ vs : List α,
      (putSeq s key vs).2.Pairwise
        (fun a b => happens_before a b = true)) := by
  refine ⟨?_, put_none_version_point s key value, put_none_happens_before s key value, ?_⟩
  · unfold Storage.put
    simp [alGet_alSet_self]
  · intro vs
    clear value
    induction vs generalizing s with
    | nil => simp [putSeq]
    | cons v vs ih =>
      simp only [putSeq, List.pairwise_cons]
      refine ⟨?_, ih (s.put key v none).1⟩
      intro w hw
      have h := putSeq_all_above key vs (s.put key v none).1 w hw
      rw [prevPrimaryVersion_after_put] at h
      exact h

/-- C10 (frame).  `put` touches only the primary entry of its key: every
other primary key and the whole backup store are unchanged.  `put_backup`
touches only its key inside the bucket of its primary id: the primary
store, every other bucket, and every other key of the bucket are
unchanged. -/
theorem storage_put_frame {α : Type} (s : Storage α) (key : String)
    (value : α) (version : Option Clock) (V : Clock) (p : Nat)
    (k' : String) (hk : k' ≠ key) (p' : Nat) (hp : p' ≠ p) :
    (s.put key value version).1.node_id = s.node_id ∧
    (s.put key value version).1.backup_store = s.backup_store ∧
    alGet (s.put key value version).1.primary_store k'
        = alGet s.primary_store k' ∧
    (s.put_backup key value V p).1.node_id = s.node_id ∧
    (s.put_backup key value V p).1.primary_store = s.primary_store ∧
    alGet (s.put_backup key value V p).1.backup_store p'
        = alGet s.backup_store p' ∧
    (s.put_backup key value V p).1.get_backup k' p
        = s.get_backup k' p := by
  refine ⟨rfl, rfl, ?_, rfl, rfl, ?_, ?_⟩
  · unfold Storage.put
    exact alGet_alSet_ne _ _ _ _ hk
  · unfold Storage.put_backup
    exact alGet_alSet_ne _ _ _ _ hp
  · unfold Storage.put_backup Storage.get_backup
    simp only [alGet_alSet_self]
    cases hg : alGet s.backup_store p with
    | some bucket =>
      simp only [hg, Option.getD]
      exact alGet_alSet_ne _ _ _ _ hk
    | none =>
      simp only [hg, Option.getD]
      rw [alGet_alSet_ne _ _ _ _ hk]
      rfl

theorem promoteFold_frame {α : Type} :
    ∀ (bucket : List (String × α × Clock)) (ps : List (String × α × Clock))
      (k : String), k ∉ bucket.map Prod.fst →
      alGet (bucket.foldl promoteStep ps) k = alGet ps k := by
  intro bucket
  induction bucket with
  | nil => intro ps k _; rfl
  | cons hd rest ih =>
    intro ps k hk
    obtain ⟨k0, e0⟩ := hd
    simp only [List.map_cons, List.mem_cons] at hk
    push_neg at hk
    rw [List.foldl_cons, ih _ k hk.2]
    unfold promoteStep
    cases alGet ps k0 with
    | none => exact alGet_alSet_ne _ _ _ _ hk.1
    | some pair =>
      obtain ⟨w, cur⟩ := pair
      by_cases hb : happens_before cur e0.2 = true
      · simp only [hb, if_true]
        exact alGet_alSet_ne _ _ _ _ hk.1
      · simp only [Bool.not_eq_true] at hb
        simp [hb]

theorem promoteFold_get {α : Type} :
    ∀ (bucket : List (String × α × Clock)) (ps : List (String × α × Clock))
      (k : String) (v : α) (ver : Clock),
      (bucket.map Prod.fst).Nodup → (k, v, ver) ∈ bucket →
      alGet (bucket.foldl promoteStep ps) k
        = some (match alGet ps k with
            | none => (v, ver)
            | some (w, cur) =>
              if happens_before cur ver then (v, ver) else (w, cur)) := by
  intro bucket
  induction bucket with
  | nil => intro ps k v ver _ hmem; simp at hmem
  | cons hd rest ih =>
    intro ps k v ver hnd hmem
    obtain ⟨k0, e0⟩ := hd
    simp only [List.map_cons, List.nodup_cons] at hnd
    rw [List.foldl_cons]
    rcases List.mem_cons.mp hmem with heq | hmem'
    · have hk : k = k0 := congrArg Prod.fst heq
      have he : e0 = (v, ver) := (congrArg Prod.snd heq).symm
      subst hk
      subst he
      have hnotin : k ∉ rest.map Prod.fst := hnd.1
      rw [promoteFold_frame rest _ k hnotin]
      unfold promoteStep
      cases hg : alGet ps k with
      | none => simp [alGet_alSet_self]
      | some pair =>
        obtain ⟨w, cur⟩ := pair
        by_cases hb : happens_before cur ver = true
        · simp [hb, alGet_alSet_self]
        · simp only [Bool.not_eq_true] at hb
          simp [hb, hg]
    · have hkrest : k ∈ rest.map Prod.fst :=
        List.mem_map.mpr ⟨(k, v, ver), hmem', rfl⟩
      have hk0 : k ≠ k0 := by
        intro h
        exact hnd.1 (h ▸ hkrest)
      have hstep : alGet (promoteStep ps (k0, e0)) k = alGet ps k := by
        unfold promoteStep
        cases alGet ps k0 with
        | none => exact alGet_alSet_ne _ _ _ _ hk0
        | some pair =>
          obtain ⟨w, cur⟩ := pair
          by_cases hb : happens_before cur e0.2 = true
          · simp only [hb, if_true]
            exact alGet_alSet_ne _ _ _ _ hk0
          · simp only [Bool.not_eq_true] at hb
            simp [hb]
      rw [ih _ k v ver hnd.2 hmem', hstep]

/-- C4 amended (Promotion-Safety).  After
`transfer_backups_to_primary(p)`, the backup bucket for `p` is purged, and
every key previously in the bucket is in the primary store carrying the
backup's version when the key was absent or the backup strictly dominated
the local version, and the prior local version otherwise; consequently the
stored version dominates-or-equals the promoted backup's version whenever
the two are comparable (one happens before the other, or they are equal). -/
theorem transfer_backups_promotion {α : Type} (s : Storage α) (p : Nat)
    (bucket : List (String × α × Clock)) (key : String) (v : α) (ver : Clock)
    (hbucket : alGet s.backup_store p = some bucket)
    (hnd : (bucket.map Prod.fst).Nodup)
    (hmem : (key, v, ver) ∈ bucket) :
    alGet (s.transfer_backups_to_primary p).backup_store p = none ∧
    alGet (s.transfer_backups_to_primary p).primary_store key
        = some (promotedEntry s key v ver) ∧
    (happens_before (prevPrimaryVersion s key) ver = true ∨
      happens_before ver (prevPrimaryVersion s key) = true ∨
      vcEq (prevPrimaryVersion s key) ver = true →
      dominates (promotedEntry s key v ver).2 ver = true) := by
  have hs : s.transfer_backups_to_primary p
      = { s with
            primary_store := bucket.foldl promoteStep s.primary_store
            backup_store := alErase s.backup_store p } := by
    unfold Storage.transfer_backups_to_primary
    rw [hbucket]
  refine ⟨?_, ?_, ?_⟩
  · rw [hs]
    exact alGet_alErase_self s.backup_store p
  · rw [hs]
    simp only
    rw [promoteFold_get bucket s.primary_store key v ver hnd hmem]
    unfold promotedEntry
    cases alGet s.primary_store key with
    | none => rfl
    | some pair => obtain ⟨w, cur⟩ := pair; rfl
  · intro hcomp
    unfold promotedEntry prevPrimaryVersion at *
    cases hg : alGet s.primary_store key with
    | none =>
      simp only
      exact dominates_refl ver
    | some pair =>
      obtain ⟨w, cur⟩ := pair
      rw [hg] at hcomp
      by_cases hb : happens_before cur ver = true
      · simp only [hb, if_true]
        exact dominates_refl ver
      · simp only [Bool.not_eq_true] at hb
        simp only [hb, Bool.false_eq_true, if_false]
        rcases hcomp with h | h | h
        · rw [hb] at h
          exact absurd h (by simp)
        · exact dominates_of_happens_before h
        · exact dominates_of_vcEq h

/-- Counterexample to C4 as stated: with a local primary version `{1:1}`
concurrent to the backup version `{2:1}` under primary id `3`, promotion
keeps the local version, which neither dominates nor equals the promoted
backup's version. -/
theorem transfer_backups_promotion_counterexample :
    alGet ((⟨1, [("k", 0, [(1, 1)])], [(3, [("k", 5, [(2, 1)])])]⟩ :
        Storage Nat).transfer_backups_to_primary 3).primary_store "k"
        = some (0, [(1, 1)]) ∧
    dominates [(1, 1)] [(2, 1)] = false ∧
    vcEq [(1, 1)] [(2, 1)] = false := by
  refine ⟨by decide, by decide, by decide⟩

/-- Witness for `transfer_backups_promotion` at a concrete input. -/
theorem transfer_backups_promotion_witness :
    (alGet ((⟨1, [("k", 0, [(1, 1)])], [(3, [("k", 5, [(2, 1)])])]⟩ :
          Storage Nat).backup_store) 3 = some [("k", 5, [(2, 1)])] ∧
      (([("k", (5 : Nat), [(2, 1)])] : List (String × Nat × Clock)).map
          Prod.fst).Nodup ∧
      ("k", (5 : Nat), ([(2, 1)] : Clock)) ∈
        ([("k", 5, [(2, 1)])] : List (String × Nat × Clock))) ∧
    (alGet ((⟨1, [("k", 0, [(1, 1)])], [(3, [("k", 5, [(2, 1)])])]⟩ :
          Storage Nat).transfer_backups_to_primary 3).backup_store 3 = none ∧
      alGet ((⟨1, [("k", 0, [(1, 1)])], [(3, [("k", 5, [(2, 1)])])]⟩ :
          Storage Nat).transfer_backups_to_primary 3).primary_store "k"
        = some (promotedEntry
            (⟨1, [("k", 0, [(1, 1)])], [(3, [("k", 5, [(2, 1)])])]⟩ :
              Storage Nat) "k" 5 [(2, 1)]) ∧
      (happens_before (prevPrimaryVersion
            (⟨1, [("k", 0, [(1, 1)])], [(3, [("k", 5, [(2, 1)])])]⟩ :
              Storage Nat) "k") [(2, 1)] = true ∨
        happens_before [(2, 1)] (prevPrimaryVersion
            (⟨1, [("k", 0, [(1, 1)])], [(3, [("k", 5, [(2, 1)])])]⟩ :
              Storage Nat) "k") = true ∨
        vcEq (prevPrimaryVersion
            (⟨1, [("k", 0, [(1, 1)])], [(3, [("k", 5, [(2, 1)])])]⟩ :
              Storage Nat) "k") [(2, 1)] = true →
        dominates (promotedEntry
            (⟨1, [("k", 0, [(1, 1)])], [(3, [("k", 5, [(2, 1)])])]⟩ :
              Storage Nat) "k" 5 [(2, 1)]).2 [(2, 1)] = true)) :=
  ⟨⟨by decide, by decide, by decide⟩,
    transfer_backups_promotion
      (⟨1, [("k", 0, [(1, 1)])], [(3, [("k", 5, [(2, 1)])])]⟩ : Storage Nat)
      3 [("k", 5, [(2, 1)])] "k" 5 [(2, 1)] (by decide) (by decide)
      (by decide)⟩

/-- Witness for `storage_put_frame` at a concrete input. -/
theorem storage_put_frame_witness :
    ("b" : String) ≠ "a" ∧ (4 : Nat) ≠ 3 ∧
    (((⟨1, [], []⟩ : Storage Nat).put "a" 5 none).1.node_id = 1 ∧
      ((⟨1, [], []⟩ : Storage Nat).put "a" 5 none).1.backup_store = [] ∧
      alGet ((⟨1, [], []⟩ : Storage Nat).put "a" 5 none).1.primary_store "b"
          = alGet ([] : List (String × Nat × Clock)) "b" ∧
      ((⟨1, [], []⟩ : Storage Nat).put_backup "a" 5 [(1, 1)] 3).1.node_id = 1 ∧
      ((⟨1, [], []⟩ : Storage Nat).put_backup "a" 5 [(1, 1)] 3).1.primary_store
          = [] ∧
      alGet ((⟨1, [], []⟩ : Storage Nat).put_backup "a" 5 [(1, 1)] 3).1.backup_store 4
          = alGet ([] : List (Nat × List (String × Nat × Clock))) 4 ∧
      ((⟨1, [], []⟩ : Storage Nat).put_backup "a" 5 [(1, 1)] 3).1.get_backup "b" 3
          = (⟨1, [], []⟩ : Storage Nat).get_backup "b" 3) :=
  ⟨by decide, by decide,
    storage_put_frame (⟨1, [], []⟩ : Storage Nat) "a" 5 none [(1, 1)] 3 "b"
      (by decide) 4 (by decide)⟩

theorem isDominatedIn_eq_false_iff (v : Clock) (vs : List Clock) :
    isDominatedIn v vs = false ↔ MaximalIn v vs := by
  unfold isDominatedIn MaximalIn
  constructor
  · intro h o ho
    by_contra hc
    rw [Bool.not_eq_false] at hc
    have hmem : vs.any
        (fun other => !happens_before other v && happens_before v other)
          = true :=
      List.any_eq_true.mpr
        ⟨o, ho, by rw [happens_before_asymm hc, hc]; rfl⟩
    rw [h] at hmem
    exact Bool.false_ne_true hmem
  · intro h
    by_contra hc
    rw [Bool.not_eq_false, List.any_eq_true] at hc
    obtain ⟨o, ho, hfo⟩ := hc
    rw [Bool.and_eq_true] at hfo
    rw [h o ho] at hfo
    exact Bool.false_ne_true hfo.2

theorem mem_candidatesOf {x : Clock} {vs : List Clock} :
    x ∈ candidatesOf vs ↔ x ∈ vs ∧ MaximalIn x vs := by
  unfold candidatesOf
  rw [List.mem_filter]
  constructor
  · rintro ⟨hmem, hcond⟩
    rw [Bool.not_eq_true'] at hcond
    exact ⟨hmem, (isDominatedIn_eq_false_iff x vs).mp hcond⟩
  · rintro ⟨hmem, hmax⟩
    refine ⟨hmem, ?_⟩
    rw [Bool.not_eq_true']
    exact (isDominatedIn_eq_false_iff x vs).mpr hmax

theorem exists_maximal :
    ∀ (vs : List Clock), vs ≠ [] → ∃ m ∈ vs, MaximalIn m vs := by
  intro vs
  induction vs with
  | nil => intro h; exact absurd rfl h
  | cons x xs ih =>
    intro _
    by_cases hxs : xs = []
    · subst hxs
      refine ⟨x, List.mem_cons_self x [], ?_⟩
      intro u hu
      rw [List.mem_singleton] at hu
      subst hu
      exact happens_before_irrefl u
    · obtain ⟨m, hm_mem, hm_max⟩ := ih hxs
      by_cases hmx : happens_before m x = true
      · refine ⟨x, List.mem_cons_self x xs, ?_⟩
        intro u hu
        rcases List.mem_cons.mp hu with h | h
        · subst h
          exact happens_before_irrefl u
        · by_contra hc
          rw [Bool.not_eq_false] at hc
          have htr := happens_before_trans hmx hc
          rw [hm_max u h] at htr
          exact Bool.false_ne_true htr
      · rw [Bool.not_eq_true] at hmx
        refine ⟨m, List.mem_cons_of_mem x hm_mem, ?_⟩
        intro u hu
        rcases List.mem_cons.mp hu with h | h
        · subst h
          exact hmx
        · exact hm_max u h

theorem length_filter_mono {α : Type} {l : List α} {p q : α → Bool}
    (h : ∀ x ∈ l, p x = true → q x = true) :
    (l.filter p).length ≤ (l.filter q).length := by
  induction l with
  | nil => simp
  | cons a l ih =>
    have ih' := ih (fun x hx => h x (List.mem_cons_of_mem a hx))
    by_cases hpa : p a = true
    · have hqa := h a (List.mem_cons_self a l) hpa
      simp only [List.filter_cons, hpa, hqa, if_true, List.length_cons]
      omega
    · rw [Bool.not_eq_true] at hpa
      by_cases hqa : q a = true
      · simp only [List.filter_cons, hpa, hqa]
        simp only [Bool.false_eq_true, if_false, if_true, List.length_cons]
        omega
      · rw [Bool.not_eq_true] at hqa
        simp only [List.filter_cons, hpa, hqa]
        simp only [Bool.false_eq_true, if_false]
        omega

theorem length_filter_strict {α : Type} {l : List α} {p q : α → Bool}
    (h : ∀ x ∈ l, p x = true → q x = true)
    (x : α) (hx : x ∈ l) (hqx : q x = true) (hpx : p x = false) :
    (l.filter p).length < (l.filter q).length := by
  induction l with
  | nil => simp at hx
  | cons a l ih =>
    have hmono := length_filter_mono
      (fun y hy => h y (List.mem_cons_of_mem a hy))
    rcases List.mem_cons.mp hx with heq | hmem
    · subst heq
      simp only [List.filter_cons, hpx, hqx, Bool.false_eq_true, if_false,
        if_true, List.length_cons]
      omega
    · have ih' := ih (fun y hy => h y (List.mem_cons_of_mem a hy)) hmem
      by_cases hpa : p a = true
      · have hqa := h a (List.mem_cons_self a l) hpa
        simp only [List.filter_cons, hpa, hqa, if_true, List.length_cons]
        omega
      · rw [Bool.not_eq_true] at hpa
        by_cases hqa : q a = true
        · simp only [List.filter_cons, hpa, hqa]
          simp only [Bool.false_eq_true, if_false, if_true, List.length_cons]
          omega
        · rw [Bool.not_eq_true] at hqa
          simp only [List.filter_cons, hpa, hqa]
          simp only [Bool.false_eq_true, if_false]
          omega

theorem chain_up_aux (vs : List Clock) :
    ∀ (n : Nat) (u : Clock), u ∈ vs →
      (vs.filter fun w => happens_before u w).length ≤ n →
      (∃ w ∈ vs, happens_before u w = true) →
      ∃ m ∈ vs, MaximalIn m vs ∧ happens_before u m = true := by
  intro n
  induction n with
  | zero =>
    intro u _ hlen ⟨w, hw_mem, hw⟩
    have : w ∈ vs.filter fun w => happens_before u w :=
      List.mem_filter.mpr ⟨hw_mem, hw⟩
    have hpos : 0 < (vs.filter fun w => happens_before u w).length :=
      List.length_pos.mpr (List.ne_nil_of_mem this)
    omega
  | succ n ih =>
    intro u hu hlen ⟨w, hw_mem, hw⟩
    by_cases hwmax : ∀ w' ∈ vs, happens_before w w' = false
    · exact ⟨w, hw_mem, hwmax, hw⟩
    · push_neg at hwmax
      obtain ⟨w', hw'_mem, hw'⟩ := hwmax
      simp only [ne_eq, Bool.not_eq_false] at hw'
      have hstrict : (vs.filter fun z => happens_before w z).length
          < (vs.filter fun z => happens_before u z).length := by
        refine length_filter_strict ?_ w hw_mem ?_ ?_
        · intro z _ hz
          exact happens_before_trans hw hz
        · exact hw
        · exact happens_before_irrefl w
      obtain ⟨m, hm_mem, hm_max, hm_hb⟩ :=
        ih w hw_mem (by omega) ⟨w', hw'_mem, hw'⟩
      exact ⟨m, hm_mem, hm_max, happens_before_trans hw hm_hb⟩

theorem chain_up {vs : List Clock} {u : Clock} (hu : u ∈ vs)
    (hnotmax : ¬ MaximalIn u vs) :
    ∃ m ∈ vs, MaximalIn m vs ∧ happens_before u m = true := by
  unfold MaximalIn at hnotmax
  push_neg at hnotmax
  obtain ⟨w, hw_mem, hw⟩ := hnotmax
  simp only [ne_eq, Bool.not_eq_false] at hw
  exact chain_up_aux vs (vs.filter fun z => happens_before u z).length u hu
    (le_refl _) ⟨w, hw_mem, hw⟩

theorem candidatesOf_ne_nil {vs : List Clock} (h : vs ≠ []) :
    candidatesOf vs ≠ [] := by
  obtain ⟨m, hm_mem, hm_max⟩ := exists_maximal vs h
  exact List.ne_nil_of_mem (mem_candidatesOf.mpr ⟨hm_mem, hm_max⟩)

theorem pairwise_of_forall_mem {α : Type} {R : α → α → Prop} :
    ∀ {l : List α}, (∀ a ∈ l, ∀ b ∈ l, R a b) → l.Pairwise R := by
  intro l
  induction l with
  | nil => intro _; exact List.Pairwise.nil
  | cons a l ih =>
    intro h
    refine List.Pairwise.cons ?_ (ih ?_)
    · intro b hb
      exact h a (List.mem_cons_self a l) b (List.mem_cons_of_mem a hb)
    · intro x hx y hy
      exact h x (List.mem_cons_of_mem a hx) y (List.mem_cons_of_mem a hy)

/-- C2 amended.  For a non-empty list of vector clocks: when
`get_latest_version` returns a clock, that clock is the unique maximal
element of the list (counting positions) and dominates every element; it
returns `None` exactly when two or more positions of the list hold maximal
versions, and those maximal versions are pairwise concurrent in the code's
sense (`concurrent_with`, which also holds for equal clocks). -/
theorem get_latest_version_spec (vs : List Clock) (hvs : vs ≠ []) :
    (∀ c, get_latest_version vs = some c →
      c ∈ vs ∧ candidatesOf vs = [c] ∧ ∀ u ∈ vs, dominates c u = true) ∧
    (get_latest_version vs = none ↔ 2 ≤ (candidatesOf vs).length) ∧
    (candidatesOf vs).Pairwise (fun a b => concurrent_with a b = true) := by
  have hpair :
      (candidatesOf vs).Pairwise (fun a b => concurrent_with a b = true) := by
    refine pairwise_of_forall_mem ?_
    intro a ha b hb
    obtain ⟨ha_mem, ha_max⟩ := mem_candidatesOf.mp ha
    obtain ⟨hb_mem, hb_max⟩ := mem_candidatesOf.mp hb
    unfold concurrent_with
    rw [ha_max b hb_mem, hb_max a ha_mem]
    rfl
  have hdom : ∀ c, candidatesOf vs = [c] → ∀ u ∈ vs, dominates c u = true := by
    intro c hcand u hu
    by_cases humax : MaximalIn u vs
    · have : u ∈ candidatesOf vs := mem_candidatesOf.mpr ⟨hu, humax⟩
      rw [hcand, List.mem_singleton] at this
      subst this
      exact dominates_refl u
    · obtain ⟨m, hm_mem, hm_max, hm_hb⟩ := chain_up hu humax
      have : m ∈ candidatesOf vs := mem_candidatesOf.mpr ⟨hm_mem, hm_max⟩
      rw [hcand, List.mem_singleton] at this
      subst this
      exact dominates_of_happens_before hm_hb
  cases vs with
  | nil => exact absurd rfl hvs
  | cons v1 tail =>
    cases tail with
    | nil =>
      have hcand : candidatesOf [v1] = [v1] := by
        unfold candidatesOf
        rw [List.filter_cons]
        have hnd : isDominatedIn v1 [v1] = false := by
          rw [isDominatedIn_eq_false_iff]
          intro u hu
          rw [List.mem_singleton] at hu
          subst hu
          exact happens_before_irrefl u
        simp [hnd, List.filter_nil]
      refine ⟨?_, ?_, hpair⟩
      · intro c hc
        have hcv : c = v1 := by
          have hgl : get_latest_version [v1] = some v1 := rfl
          rw [hgl] at hc
          exact (Option.some.injEq _ _ ▸ hc).symm
        subst hcv
        exact ⟨List.mem_singleton.mpr rfl, hcand, hdom c hcand⟩
      · have hgl : get_latest_version [v1] = some v1 := rfl
        rw [hgl, hcand]
        simp
    | cons v2 rest =>
      have hne : candidatesOf (v1 :: v2 :: rest) ≠ [] :=
        candidatesOf_ne_nil (by simp)
      have hgl : get_latest_version (v1 :: v2 :: rest)
          = match candidatesOf (v1 :: v2 :: rest) with
            | [c] => some c
            | _ => none := rfl
      refine ⟨?_, ?_, hpair⟩
      · intro c hc
        rw [hgl] at hc
        cases hcand : candidatesOf (v1 :: v2 :: rest) with
        | nil => exact absurd hcand hne
        | cons c1 ctail =>
          cases ctail with
          | nil =>
            rw [hcand] at hc
            simp only [Option.some.injEq] at hc
            subst hc
            have hc_cand : c1 ∈ candidatesOf (v1 :: v2 :: rest) := by
              rw [hcand]
              exact List.mem_singleton.mpr rfl
            have hc_mem : c1 ∈ v1 :: v2 :: rest :=
              (mem_candidatesOf.mp hc_cand).1
            exact ⟨hc_mem, rfl, hdom c1 hcand⟩
          | cons c2 crest =>
            rw [hcand] at hc
            simp at hc
      · rw [hgl]
        cases hcand : candidatesOf (v1 :: v2 :: rest) with
        | nil => exact absurd hcand hne
        | cons c1 ctail =>
          cases ctail with
          | nil => simp
          | cons c2 crest => simp

/-- Counterexample to C2 as stated: in the list `[{1:1}, {1:1}]` the set of
maximal versions contains exactly one version (the two maximal entries are
equal under the code's own version equality), yet `get_latest_version`
returns `None` instead of that dominating version. -/
theorem get_latest_version_counterexample :
    get_latest_version [[(1, 1)], [(1, 1)]] = none ∧
    isDominatedIn [(1, 1)] [[(1, 1)], [(1, 1)]] = false ∧
    vcEq [(1, 1)] [(1, 1)] = true ∧
    dominates [(1, 1)] [(1, 1)] = true := by
  refine ⟨by decide, by decide, by decide, by decide⟩

/-- Witness for `get_latest_version_spec` at a concrete input. -/
theorem get_latest_version_spec_witness :
    (([[(1, 2)], [(1, 1)]] : List Clock) ≠ []) ∧
    ((∀ c, get_latest_version [[(1, 2)], [(1, 1)]] = some c →
        c ∈ [[(1, 2)], [(1, 1)]] ∧
          candidatesOf [[(1, 2)], [(1, 1)]] = [c] ∧
          ∀ u ∈ ([[(1, 2)], [(1, 1)]] : List Clock), dominates c u = true) ∧
      (get_latest_version [[(1, 2)], [(1, 1)]] = none ↔
        2 ≤ (candidatesOf [[(1, 2)], [(1, 1)]]).length) ∧
      (candidatesOf [[(1, 2)], [(1, 1)]]).Pairwise
        (fun a b => concurrent_with a b = true)) :=
  ⟨by decide, get_latest_version_spec [[(1, 2)], [(1, 1)]] (by decide)⟩

theorem candidatesOf_single (v : Clock) : candidatesOf [v] = [v] := by
  unfold candidatesOf
  rw [List.filter_cons]
  have hnd : isDominatedIn v [v] = false := by
    rw [isDominatedIn_eq_false_iff]
    intro u hu
    rw [List.mem_singleton] at hu
    subst hu
    exact happens_before_irrefl u
  simp [hnd, List.filter_nil]

theorem get_latest_of_candidates_single {vs : List Clock} {c : Clock}
    (h : candidatesOf vs = [c]) : get_latest_version vs = some c := by
  cases vs with
  | nil => simp [candidatesOf] at h
  | cons v1 tail =>
    cases tail with
    | nil =>
      have hv : v1 = c := by
        rw [candidatesOf_single v1] at h
        exact (List.cons.injEq _ _ _ _ ▸ h).1
      subst hv
      rfl
    | cons v2 rest =>
      show (match candidatesOf (v1 :: v2 :: rest) with
        | [c] => some c
        | _ => none) = some c
      rw [h]

theorem winning_version_of_candidates_single {vs : List Clock} {c : Clock}
    (h : candidatesOf vs = [c]) : winning_version vs = some c := by
  unfold winning_version
  rw [get_latest_of_candidates_single h]

theorem filter_congr_of_mem {α : Type} {p q : α → Bool} :
    ∀ {l : List α}, (∀ x ∈ l, p x = q x) → l.filter p = l.filter q := by
  intro l
  induction l with
  | nil => intro _; rfl
  | cons a l ih =>
    intro h
    rw [List.filter_cons, List.filter_cons,
      h a (List.mem_cons_self a l),
      ih fun x hx => h x (List.mem_cons_of_mem a hx)]

/-- With a unique maximal version `c` in `vs`, a member version is not
`vcEq`-equal to `c` exactly when it strictly happens before `c`. -/
theorem stale_iff_older {vs : List Clock} {c : Clock}
    (hcand : candidatesOf vs = [c]) {v : Clock} (hv : v ∈ vs) :
    (!vcEq v c) = happens_before v c := by
  by_cases hmax : MaximalIn v vs
  · have hvc : v = c := by
      have hmem : v ∈ candidatesOf vs := mem_candidatesOf.mpr ⟨hv, hmax⟩
      rw [hcand, List.mem_singleton] at hmem
      exact hmem
    subst hvc
    have h1 : vcEq v v = true := (vcEq_iff v v).mpr fun _ => rfl
    rw [h1, happens_before_irrefl]
    rfl
  · obtain ⟨m, hm_mem, hm_max, hm_hb⟩ := chain_up hv hmax
    have hmc : m = c := by
      have hmem : m ∈ candidatesOf vs := mem_candidatesOf.mpr ⟨hm_mem, hm_max⟩
      rw [hcand, List.mem_singleton] at hmem
      exact hmem
    subst hmc
    rw [hm_hb, not_vcEq_of_happens_before hm_hb]
    rfl

/-- C3 amended.  When at least `R ≥ 1` responses are gathered, `quorum_get`
resolves a winning version and marks for read repair exactly the replicas
whose returned version differs from it under the code's version equality;
when the maximal version among the responses is unique, this set coincides
with the replicas whose version strictly happens before the winning one.
(When the responses hold concurrent maximal versions, the winner is the
first received and concurrent replicas are repaired as well.) -/
theorem quorum_get_read_repair {α : Type} (R : Nat)
    (reads : List (NodeInfo × α × Clock)) (hR : 1 ≤ R)
    (hlen : R ≤ reads.length) :
    ∃ latest,
      winning_version (reads.map fun r => r.2.2) = some latest ∧
      quorum_read_result R reads
        = some (latest_value_of reads latest, latest,
            stale_replicas_of reads latest) ∧
      stale_replicas_of reads latest
        = (reads.filter fun r => !vcEq r.2.2 latest).map (fun r => r.1) ∧
      (candidatesOf (reads.map fun r => r.2.2) = [latest] →
        stale_replicas_of reads latest
          = (reads.filter fun r => happens_before r.2.2 latest).map
              fun r => r.1) := by
  have hne : reads ≠ [] := by
    intro h
    subst h
    simp at hlen
    omega
  have hwin : ∃ latest, winning_version (reads.map fun r => r.2.2)
      = some latest := by
    unfold winning_version
    cases hgl : get_latest_version (reads.map fun r => r.2.2) with
    | some v => exact ⟨v, rfl⟩
    | none =>
      cases hreads : reads with
      | nil => exact absurd hreads hne
      | cons r0 rtail => exact ⟨r0.2.2, by simp⟩
  obtain ⟨latest, hlatest⟩ := hwin
  refine ⟨latest, hlatest, ?_, rfl, ?_⟩
  · unfold quorum_read_result
    rw [if_neg (by omega), hlatest]
  · intro hcand
    unfold stale_replicas_of
    congr 1
    refine filter_congr_of_mem ?_
    intro r hr
    exact stale_iff_older hcand
      (List.mem_map.mpr ⟨r, hr, rfl⟩)

/-- Counterexample to C3 as stated: two responses with concurrent versions
`{1:1}` and `{2:1}`; the winner is the first received, and the replica that
returned the concurrent version `{2:1}` — which is not strictly older than
the winner — is marked for read repair. -/
theorem quorum_get_read_repair_counterexample :
    quorum_read_result 2
        [(⟨1, "a"⟩, "x", [(1, 1)]), (⟨2, "b"⟩, "y", [(2, 1)])]
      = some (some "x", [(1, 1)], [⟨2, "b"⟩]) ∧
    concurrent_with [(2, 1)] [(1, 1)] = true ∧
    happens_before [(2, 1)] [(1, 1)] = false := by
  refine ⟨by decide, by decide, by decide⟩

/-- Witness for `quorum_get_read_repair` at a concrete input. -/
theorem quorum_get_read_repair_witness :
    (1 ≤ 2 ∧ 2 ≤ ([(⟨1, "a"⟩, "x", [(1, 2)]), (⟨2, "b"⟩, "y", [(1, 1)])] :
        List (NodeInfo × String × Clock)).length) ∧
    (∃ latest,
      winning_version
          (([(⟨1, "a"⟩, "x", [(1, 2)]), (⟨2, "b"⟩, "y", [(1, 1)])] :
            List (NodeInfo × String × Clock)).map fun r => r.2.2)
        = some latest ∧
      quorum_read_result 2
          [(⟨1, "a"⟩, "x", [(1, 2)]), (⟨2, "b"⟩, "y", [(1, 1)])]
        = some (latest_value_of
            [(⟨1, "a"⟩, "x", [(1, 2)]), (⟨2, "b"⟩, "y", [(1, 1)])] latest,
            latest,
            stale_replicas_of
              [(⟨1, "a"⟩, "x", [(1, 2)]), (⟨2, "b"⟩, "y", [(1, 1)])] latest) ∧
      stale_replicas_of
          [(⟨1, "a"⟩, "x", [(1, 2)]), (⟨2, "b"⟩, "y", [(1, 1)])] latest
        = (([(⟨1, "a"⟩, "x", [(1, 2)]), (⟨2, "b"⟩, "y", [(1, 1)])] :
            List (NodeInfo × String × Clock)).filter
              fun r => !vcEq r.2.2 latest).map (fun r => r.1) ∧
      (candidatesOf
          (([(⟨1, "a"⟩, "x", [(1, 2)]), (⟨2, "b"⟩, "y", [(1, 1)])] :
            List (NodeInfo × String × Clock)).map fun r => r.2.2)
          = [latest] →
        stale_replicas_of
            [(⟨1, "a"⟩, "x", [(1, 2)]), (⟨2, "b"⟩, "y", [(1, 1)])] latest
          = (([(⟨1, "a"⟩, "x", [(1, 2)]), (⟨2, "b"⟩, "y", [(1, 1)])] :
              List (NodeInfo × String × Clock)).filter
                fun r => happens_before r.2.2 latest).map fun r => r.1)) :=
  ⟨⟨by decide, by decide⟩,
    quorum_get_read_repair 2
      [(⟨1, "a"⟩, "x", [(1, 2)]), (⟨2, "b"⟩, "y", [(1, 1)])]
      (by decide) (by decide)⟩

/-- C5 amended.  For a received message that is not a reply to a pending
request: when no handler is registered for its type the dispatcher returns
no reply at all (it does not build an ERROR reply); when the registered
handler raises, it returns an ERROR reply carrying the exception text; when
the handler returns normally its response is passed through. -/
theorem dispatch_message_spec (node_id : Nat) (address : String)
    (pending : List String)
    (handlers : List (String × (Message → Except String (Option Message))))
    (msg : Message) (hpend : msg.msg_id ∉ pending) :
    (alGet handlers msg.msg_type = none →
      dispatch_message node_id address pending handlers msg = none) ∧
    (∀ handler e, alGet handlers msg.msg_type = some handler →
      handler msg = Except.error e →
      dispatch_message node_id address pending handlers msg
        = some (create_error_msg node_id address e msg.msg_id)) ∧
    (∀ handler r, alGet handlers msg.msg_type = some handler →
      handler msg = Except.ok r →
      dispatch_message node_id address pending handlers msg = r) := by
  unfold dispatch_message
  rw [if_neg hpend]
  refine ⟨?_, ?_, ?_⟩
  · intro h
    rw [h]
  · intro handler e hh he
    rw [hh]
    simp only [he]
  · intro handler r hh hr
    rw [hh]
    simp only [hr]

/-- Counterexample to C5 as stated: with no handler registered for the
message type, the dispatcher returns no message at all — in particular not
an ERROR reply. -/
theorem dispatch_message_counterexample :
    dispatch_message 1 "h:1" [] [] ⟨"put", 2, "h:2", "m1", []⟩ = none ∧
    ∀ m : Message,
      dispatch_message 1 "h:1" [] [] ⟨"put", 2, "h:2", "m1", []⟩ ≠ some m := by
  refine ⟨rfl, ?_⟩
  intro m h
  exact Option.noConfusion h

/-- Witness for `dispatch_message_spec` at a concrete input with a raising
handler. -/
theorem dispatch_message_spec_witness :
    (("m1" : String) ∉ ([] : List String)) ∧
    ((alGet [("put", fun _ : Message => (Except.error "boom" :
          Except String (Option Message)))] "put" = none →
        dispatch_message 1 "h:1" []
          [("put", fun _ => Except.error "boom")]
          ⟨"put", 2, "h:2", "m1", []⟩ = none) ∧
      (∀ handler e,
        alGet [("put", fun _ : Message => (Except.error "boom" :
            Except String (Option Message)))] "put" = some handler →
        handler ⟨"put", 2, "h:2", "m1", []⟩ = Except.error e →
        dispatch_message 1 "h:1" []
          [("put", fun _ => Except.error "boom")]
          ⟨"put", 2, "h:2", "m1", []⟩
          = some (create_error_msg 1 "h:1" e "m1")) ∧
      (∀ handler r,
        alGet [("put", fun _ : Message => (Except.error "boom" :
            Except String (Option Message)))] "put" = some handler →
        handler ⟨"put", 2, "h:2", "m1", []⟩ = Except.ok r →
        dispatch_message 1 "h:1" []
          [("put", fun _ => Except.error "boom")]
          ⟨"put", 2, "h:2", "m1", []⟩ = r)) :=
  ⟨by decide,
    dispatch_message_spec 1 "h:1" [] [("put", fun _ => Except.error "boom")]
      ⟨"put", 2, "h:2", "m1", []⟩ (by decide)⟩

theorem ringDist_of_le {m identifier b : Nat} (h1 : identifier ≤ b)
    (hb : b < 2 ^ m) : ringDist m identifier b = b - identifier := by
  unfold ringDist
  have hpow : 0 < 2 ^ m := pow_pos (by norm_num) m
  have heq : b + 2 ^ m - identifier = (b - identifier) + 2 ^ m := by omega
  rw [heq, Nat.add_mod_right]
  exact Nat.mod_eq_of_lt (by omega)

theorem ringDist_of_gt {m identifier b : Nat} (h1 : b < identifier)
    (hid : identifier < 2 ^ m) :
    ringDist m identifier b = b + 2 ^ m - identifier := by
  unfold ringDist
  have hpow : 0 < 2 ^ m := pow_pos (by norm_num) m
  exact Nat.mod_eq_of_lt (by omega)

theorem findFirstGE_some_spec :
    ∀ (l : List NodeInfo) (identifier : Nat),
      l.Pairwise (fun a b => a.node_id < b.node_id) →
      ∀ r, findFirstGE l identifier = some r →
        r ∈ l ∧ identifier ≤ r.node_id ∧
        ∀ nd ∈ l, nd.node_id ≠ r.node_id →
          nd.node_id < identifier ∨
            (identifier ≤ nd.node_id ∧ r.node_id < nd.node_id) := by
  intro l
  induction l with
  | nil => intro identifier _ r h; exact Option.noConfusion h
  | cons x rest ih =>
    intro identifier hsorted r hfind
    rw [List.pairwise_cons] at hsorted
    by_cases hx : identifier ≤ x.node_id
    · rw [show findFirstGE (x :: rest) identifier = some x by
        unfold findFirstGE; rw [if_pos hx]] at hfind
      obtain rfl : x = r := Option.some.injEq _ _ ▸ hfind
      refine ⟨List.mem_cons_self x rest, hx, ?_⟩
      intro nd hnd hne
      rcases List.mem_cons.mp hnd with h | h
      · exact absurd (congrArg NodeInfo.node_id h) hne
      · exact Or.inr ⟨le_trans hx (le_of_lt (hsorted.1 nd h)), hsorted.1 nd h⟩
    · rw [show findFirstGE (x :: rest) identifier
          = findFirstGE rest identifier by
        simp only [findFirstGE, if_neg hx]] at hfind
      obtain ⟨hmem, hle, hmin⟩ := ih identifier hsorted.2 r hfind
      refine ⟨List.mem_cons_of_mem x hmem, hle, ?_⟩
      intro nd hnd hne
      rcases List.mem_cons.mp hnd with h | h
      · subst h
        exact Or.inl (by omega)
      · exact hmin nd h hne

theorem findFirstGE_none_spec :
    ∀ (l : List NodeInfo) (identifier : Nat),
      findFirstGE l identifier = none →
      ∀ nd ∈ l, nd.node_id < identifier := by
  intro l
  induction l with
  | nil => intro identifier _ nd hnd; simp at hnd
  | cons x rest ih =>
    intro identifier hfind nd hnd
    by_cases hx : identifier ≤ x.node_id
    · rw [show findFirstGE (x :: rest) identifier = some x by
        unfold findFirstGE; rw [if_pos hx]] at hfind
      exact Option.noConfusion hfind
    · rw [show findFirstGE (x :: rest) identifier
          = findFirstGE rest identifier by
        simp only [findFirstGE, if_neg hx]] at hfind
      rcases List.mem_cons.mp hnd with h | h
      · subst h
        omega
      · exact ih identifier hfind nd h

/-- C6 (Routing).  With a non-empty full-membership list, sorted by
strictly increasing node id, all ids and the identifier below `2^m`,
`find_successor_from_all` returns a member node that uniquely minimizes
the clockwise ring distance `(node_id - identifier) mod 2^m`. -/
theorem find_successor_minimizes (m : Nat) (all_nodes : List NodeInfo)
    (identifier : Nat) (hne : all_nodes ≠ [])
    (hsorted : all_nodes.Pairwise (fun a b => a.node_id < b.node_id))
    (hbound : ∀ nd ∈ all_nodes, nd.node_id < 2 ^ m)
    (hid : identifier < 2 ^ m) :
    ∃ r, find_successor_from_all all_nodes identifier = some r ∧
      r ∈ all_nodes ∧
      (∀ nd ∈ all_nodes,
        ringDist m identifier r.node_id ≤ ringDist m identifier nd.node_id) ∧
      (∀ nd ∈ all_nodes, nd.node_id ≠ r.node_id →
        ringDist m identifier r.node_id
          < ringDist m identifier nd.node_id) := by
  cases all_nodes with
  | nil => exact absurd rfl hne
  | cons n0 rest =>
    have hstrict : ∀ r, r ∈ n0 :: rest →
        (∀ nd ∈ n0 :: rest, nd.node_id ≠ r.node_id →
          ringDist m identifier r.node_id
            < ringDist m identifier nd.node_id) →
        (∀ nd ∈ n0 :: rest,
          ringDist m identifier r.node_id
            ≤ ringDist m identifier nd.node_id) := by
      intro r _ hlt nd hnd
      by_cases he : nd.node_id = r.node_id
      · rw [he]
      · exact le_of_lt (hlt nd hnd he)
    cases hfind : findFirstGE (n0 :: rest) identifier with
    | some r =>
      obtain ⟨hmem, hle, hmin⟩ :=
        findFirstGE_some_spec (n0 :: rest) identifier hsorted r hfind
      have hrb : r.node_id < 2 ^ m := hbound r hmem
      have hlt : ∀ nd ∈ n0 :: rest, nd.node_id ≠ r.node_id →
          ringDist m identifier r.node_id
            < ringDist m identifier nd.node_id := by
        intro nd hnd hne'
        have hndb : nd.node_id < 2 ^ m := hbound nd hnd
        rcases hmin nd hnd hne' with h | h
        · rw [ringDist_of_le hle hrb, ringDist_of_gt h hid]
          omega
        · rw [ringDist_of_le hle hrb, ringDist_of_le h.1 hndb]
          omega
      refine ⟨r, ?_, hmem, hstrict r hmem hlt, hlt⟩
      show (match findFirstGE (n0 :: rest) identifier with
        | some node => some node
        | none => some n0) = some r
      rw [hfind]
    | none =>
      have hall := findFirstGE_none_spec (n0 :: rest) identifier hfind
      have hmem : n0 ∈ n0 :: rest := List.mem_cons_self n0 rest
      have hn0 : n0.node_id < identifier := hall n0 hmem
      have hlt : ∀ nd ∈ n0 :: rest, nd.node_id ≠ n0.node_id →
          ringDist m identifier n0.node_id
            < ringDist m identifier nd.node_id := by
        intro nd hnd hne'
        have hndlt : nd.node_id < identifier := hall nd hnd
        have hlow : n0.node_id < nd.node_id := by
          rcases List.mem_cons.mp hnd with h | h
          · exact absurd (congrArg NodeInfo.node_id h) hne'
          · rw [List.pairwise_cons] at hsorted
            exact hsorted.1 nd h
        rw [ringDist_of_gt hn0 hid, ringDist_of_gt hndlt hid]
        have hpow : 0 < 2 ^ m := pow_pos (by norm_num) m
        omega
      refine ⟨n0, ?_, hmem, hstrict n0 hmem hlt, hlt⟩
      show (match findFirstGE (n0 :: rest) identifier with
        | some node => some node
        | none => some n0) = some n0
      rw [hfind]

/-- Witness for `find_successor_minimizes` at a concrete input. -/
theorem find_successor_minimizes_witness :
    (([⟨1, "a"⟩, ⟨3, "b"⟩, ⟨6, "c"⟩] : List NodeInfo) ≠ [] ∧
      ([⟨1, "a"⟩, ⟨3, "b"⟩, ⟨6, "c"⟩] : List NodeInfo).Pairwise
        (fun a b => a.node_id < b.node_id) ∧
      (∀ nd ∈ ([⟨1, "a"⟩, ⟨3, "b"⟩, ⟨6, "c"⟩] : List NodeInfo),
        nd.node_id < 2 ^ 3) ∧
      4 < 2 ^ 3) ∧
    (∃ r, find_successor_from_all [⟨1, "a"⟩, ⟨3, "b"⟩, ⟨6, "c"⟩] 4 = some r ∧
      r ∈ ([⟨1, "a"⟩, ⟨3, "b"⟩, ⟨6, "c"⟩] : List NodeInfo) ∧
      (∀ nd ∈ ([⟨1, "a"⟩, ⟨3, "b"⟩, ⟨6, "c"⟩] : List NodeInfo),
        ringDist 3 4 r.node_id ≤ ringDist 3 4 nd.node_id) ∧
      (∀ nd ∈ ([⟨1, "a"⟩, ⟨3, "b"⟩, ⟨6, "c"⟩] : List NodeInfo),
        nd.node_id ≠ r.node_id →
        ringDist 3 4 r.node_id < ringDist 3 4 nd.node_id)) :=
  ⟨⟨by decide, by decide, by decide, by decide⟩,
    find_successor_minimizes 3 [⟨1, "a"⟩, ⟨3, "b"⟩, ⟨6, "c"⟩] 4
      (by decide) (by decide) (by decide) (by decide)⟩

theorem findFirstGE_mem :
    ∀ (l : List NodeInfo) (identifier : Nat) (r : NodeInfo),
      findFirstGE l identifier = some r → r ∈ l := by
  intro l
  induction l with
  | nil => intro identifier r h; exact Option.noConfusion h
  | cons x rest ih =>
    intro identifier r h
    by_cases hx : identifier ≤ x.node_id
    · rw [show findFirstGE (x :: rest) identifier = some x by
        simp only [findFirstGE, if_pos hx]] at h
      obtain rfl : x = r := Option.some.injEq _ _ ▸ h
      exact List.mem_cons_self x rest
    · rw [show findFirstGE (x :: rest) identifier
          = findFirstGE rest identifier by
        simp only [findFirstGE, if_neg hx]] at h
      exact List.mem_cons_of_mem x (ih identifier r h)

theorem find_successor_mem (all_nodes : List NodeInfo) (identifier : Nat)
    (hne : all_nodes ≠ []) :
    ∃ r, find_successor_from_all all_nodes identifier = some r ∧
      r ∈ all_nodes := by
  cases all_nodes with
  | nil => exact absurd rfl hne
  | cons n0 rest =>
    cases hfind : findFirstGE (n0 :: rest) identifier with
    | some node =>
      refine ⟨node, ?_, findFirstGE_mem _ _ _ hfind⟩
      show (match findFirstGE (n0 :: rest) identifier with
        | some node => some node
        | none => some n0) = some node
      rw [hfind]
    | none =>
      refine ⟨n0, ?_, List.mem_cons_self n0 rest⟩
      show (match findFirstGE (n0 :: rest) identifier with
        | some node => some node
        | none => some n0) = some n0
      rw [hfind]

theorem indexOfNode_spec :
    ∀ (l : List NodeInfo) (t : NodeInfo) (s : Nat),
      indexOfNode l t = some s →
      s < l.length ∧ ∀ d, (l.getD s d).node_id = t.node_id := by
  intro l
  induction l with
  | nil => intro t s h; exact Option.noConfusion h
  | cons x rest ih =>
    intro t s h
    by_cases hx : x.node_id = t.node_id
    · rw [show indexOfNode (x :: rest) t = some 0 by
        simp only [indexOfNode, if_pos hx]] at h
      obtain rfl : (0 : Nat) = s := Option.some.injEq _ _ ▸ h
      exact ⟨Nat.succ_pos _, fun d => by simpa using hx⟩
    · rw [show indexOfNode (x :: rest) t = (indexOfNode rest t).map (· + 1) by
        simp only [indexOfNode, if_neg hx]] at h
      cases hrec : indexOfNode rest t with
      | none =>
        rw [hrec] at h
        exact Option.noConfusion h
      | some s' =>
        rw [hrec] at h
        have h' : some (s' + 1) = some s := h
        obtain rfl : s' + 1 = s := Option.some.injEq _ _ ▸ h'
        obtain ⟨hlt, hget⟩ := ih t s' hrec
        refine ⟨by simpa using Nat.succ_lt_succ hlt, fun d => ?_⟩
        simpa using hget d

theorem indexOfNode_of_mem :
    ∀ (l : List NodeInfo) (t : NodeInfo), t ∈ l →
      ∃ s, indexOfNode l t = some s := by
  intro l
  induction l with
  | nil => intro t h; simp at h
  | cons x rest ih =>
    intro t h
    by_cases hx : x.node_id = t.node_id
    · exact ⟨0, by simp only [indexOfNode, if_pos hx]⟩
    · rcases List.mem_cons.mp h with heq | hmem
      · exact absurd (congrArg NodeInfo.node_id heq.symm) hx
      · obtain ⟨s, hs⟩ := ih t hmem
        refine ⟨s + 1, ?_⟩
        simp only [indexOfNode, if_neg hx, hs]
        rfl

theorem getD_mem :
    ∀ (l : List NodeInfo) (s : Nat) (d : NodeInfo), s < l.length →
      l.getD s d ∈ l := by
  intro l
  induction l with
  | nil => intro s d h; simp at h
  | cons x rest ih =>
    intro s d h
    cases s with
    | zero => simp
    | succ s' =>
      simp only [List.getD_cons_succ]
      exact List.mem_cons_of_mem x (ih s' d (by simpa using h))

theorem nodeId_inj :
    ∀ {l : List NodeInfo}, (l.map NodeInfo.node_id).Nodup →
      ∀ x ∈ l, ∀ y ∈ l, x.node_id = y.node_id → x = y := by
  intro l
  induction l with
  | nil => intro _ x hx; simp at hx
  | cons a l ih =>
    intro hnd x hx y hy hxy
    simp only [List.map_cons, List.nodup_cons] at hnd
    rcases List.mem_cons.mp hx with hxa | hxl <;>
      rcases List.mem_cons.mp hy with hya | hyl
    · rw [hxa, hya]
    · subst hxa
      exact absurd (hxy ▸ List.mem_map.mpr ⟨y, hyl, rfl⟩) hnd.1
    · subst hya
      exact absurd (List.mem_map.mpr ⟨x, hxl, hxy⟩) hnd.1
    · exact ih hnd.2 x hxl y hyl hxy

theorem nodup_getD_id_inj :
    ∀ {l : List NodeInfo}, (l.map NodeInfo.node_id).Nodup →
      ∀ (p q : Nat) (d : NodeInfo), p < l.length → q < l.length →
      (l.getD p d).node_id = (l.getD q d).node_id → p = q := by
  intro l
  induction l with
  | nil => intro _ p q d hp; simp at hp
  | cons a l ih =>
    intro hnd p q d hp hq heq
    simp only [List.map_cons, List.nodup_cons] at hnd
    cases p with
    | zero =>
      cases q with
      | zero => rfl
      | succ q' =>
        simp only [List.getD_cons_zero, List.getD_cons_succ] at heq
        have hmem : l.getD q' d ∈ l := getD_mem l q' d (by simpa using hq)
        exact absurd (heq ▸ List.mem_map.mpr ⟨l.getD q' d, hmem, rfl⟩) hnd.1
    | succ p' =>
      cases q with
      | zero =>
        simp only [List.getD_cons_zero, List.getD_cons_succ] at heq
        have hmem : l.getD p' d ∈ l := getD_mem l p' d (by simpa using hp)
        exact absurd (heq ▸ List.mem_map.mpr ⟨l.getD p' d, hmem, rfl⟩) hnd.1
      | succ q' =>
        simp only [List.getD_cons_succ] at heq
        have := ih hnd.2 p' q' d (by simpa using hp) (by simpa using hq) heq
        omega

theorem add_mod_inj {len s i j : Nat} (hi : i < len) (hj : j < len)
    (h : (s + i) % len = (s + j) % len) : i = j := by
  have h2 : i % len = j % len := Nat.ModEq.add_left_cancel' s h
  rwa [Nat.mod_eq_of_lt hi, Nat.mod_eq_of_lt hj] at h2

theorem pairwise_lt_nodup_ids {l : List NodeInfo}
    (h : l.Pairwise fun a b => a.node_id < b.node_id) :
    (l.map NodeInfo.node_id).Nodup := by
  have hpw : (l.map NodeInfo.node_id).Pairwise (· < ·) :=
    List.Pairwise.map NodeInfo.node_id (fun _ _ hab => hab) h
  exact hpw.imp Nat.ne_of_lt

/-- C7 (Replica-Set).  With a non-empty full-membership list sorted by
strictly increasing node id and `n ≥ 1`, `get_n_successors(identifier, n)`
returns exactly `min n N` nodes with pairwise distinct ids, namely the
contiguous clockwise arc of the sorted ring that starts at the index of the
responsible node for `identifier` and walks forward with wraparound. -/
theorem get_n_successors_arc (all_nodes : List NodeInfo)
    (identifier n : Nat) (hne : all_nodes ≠ [])
    (hsorted : all_nodes.Pairwise fun a b => a.node_id < b.node_id)
    (hn : 1 ≤ n) :
    ∃ r s,
      find_successor_from_all all_nodes identifier = some r ∧
      s < all_nodes.length ∧
      all_nodes.getD s r = r ∧
      get_n_successors all_nodes identifier n
        = (List.range (min n all_nodes.length)).map
            (fun i => all_nodes.getD ((s + i) % all_nodes.length) r) ∧
      (get_n_successors all_nodes identifier n).length
        = min n all_nodes.length ∧
      (get_n_successors all_nodes identifier n).head? = some r ∧
      ((get_n_successors all_nodes identifier n).map NodeInfo.node_id).Nodup
      := by
  have hids : (all_nodes.map NodeInfo.node_id).Nodup :=
    pairwise_lt_nodup_ids hsorted
  obtain ⟨r, hfind, hr_mem⟩ := find_successor_mem all_nodes identifier hne
  obtain ⟨s, hidx⟩ := indexOfNode_of_mem all_nodes r hr_mem
  obtain ⟨hs_lt, hs_id⟩ := indexOfNode_spec all_nodes r s hidx
  have hlen_pos : 0 < all_nodes.length := List.length_pos.mpr hne
  have hgetD : all_nodes.getD s r = r :=
    nodeId_inj hids _ (getD_mem all_nodes s r hs_lt) r hr_mem (hs_id r)
  have hempty : all_nodes.isEmpty = false := by
    cases all_nodes with
    | nil => exact absurd rfl hne
    | cons a l => rfl
  have hcond : (all_nodes.isEmpty || decide (n = 0)) = false := by
    rw [hempty, decide_eq_false (by omega : ¬ n = 0)]
    rfl
  have hres : get_n_successors all_nodes identifier n
      = (List.range (min n all_nodes.length)).map
          (fun i => all_nodes.getD ((s + i) % all_nodes.length) r) := by
    unfold get_n_successors
    simp only [hcond, Bool.false_eq_true, if_false, hfind, hidx]
  have hmin_pos : 0 < min n all_nodes.length := by omega
  refine ⟨r, s, hfind, hs_lt, hgetD, hres, ?_, ?_, ?_⟩
  · rw [hres, List.length_map, List.length_range]
  · rw [hres]
    obtain ⟨k, hk⟩ : ∃ k, min n all_nodes.length = k + 1 :=
      ⟨min n all_nodes.length - 1, by omega⟩
    rw [hk, List.range_succ_eq_map, List.map_cons]
    simp only [List.head?_cons, Option.some.injEq]
    rw [Nat.add_zero, Nat.mod_eq_of_lt hs_lt]
    exact hgetD
  · rw [hres, List.map_map]
    refine List.Nodup.map_on ?_ (List.nodup_range _)
    intro i hi j hj hij
    rw [List.mem_range] at hi hj
    have hi' : i < all_nodes.length := by omega
    have hj' : j < all_nodes.length := by omega
    have hpq : (s + i) % all_nodes.length = (s + j) % all_nodes.length :=
      nodup_getD_id_inj hids _ _ r
        (Nat.mod_lt _ hlen_pos) (Nat.mod_lt _ hlen_pos) hij
    exact add_mod_inj hi' hj' hpq

/-- Witness for `get_n_successors_arc` at a concrete input. -/
theorem get_n_successors_arc_witness :
    (([⟨1, "a"⟩, ⟨3, "b"⟩, ⟨6, "c"⟩] : List NodeInfo) ≠ [] ∧
      ([⟨1, "a"⟩, ⟨3, "b"⟩, ⟨6, "c"⟩] : List NodeInfo).Pairwise
        (fun a b => a.node_id < b.node_id) ∧
      1 ≤ 2) ∧
    (∃ r s,
      find_successor_from_all [⟨1, "a"⟩, ⟨3, "b"⟩, ⟨6, "c"⟩] 4 = some r ∧
      s < ([⟨1, "a"⟩, ⟨3, "b"⟩, ⟨6, "c"⟩] : List NodeInfo).length ∧
      ([⟨1, "a"⟩, ⟨3, "b"⟩, ⟨6, "c"⟩] : List NodeInfo).getD s r = r ∧
      get_n_successors [⟨1, "a"⟩, ⟨3, "b"⟩, ⟨6, "c"⟩] 4 2
        = (List.range
            (min 2 ([⟨1, "a"⟩, ⟨3, "b"⟩, ⟨6, "c"⟩] : List NodeInfo).length)).map
            (fun i => ([⟨1, "a"⟩, ⟨3, "b"⟩, ⟨6, "c"⟩] : List NodeInfo).getD
              ((s + i) % ([⟨1, "a"⟩, ⟨3, "b"⟩, ⟨6, "c"⟩] :
                List NodeInfo).length) r) ∧
      (get_n_successors [⟨1, "a"⟩, ⟨3, "b"⟩, ⟨6, "c"⟩] 4 2).length
        = min 2 ([⟨1, "a"⟩, ⟨3, "b"⟩, ⟨6, "c"⟩] : List NodeInfo).length ∧
      (get_n_successors [⟨1, "a"⟩, ⟨3, "b"⟩, ⟨6, "c"⟩] 4 2).head? = some r ∧
      ((get_n_successors [⟨1, "a"⟩, ⟨3, "b"⟩, ⟨6, "c"⟩] 4 2).map
        NodeInfo.node_id).Nodup) :=
  ⟨⟨by decide, by decide, by decide⟩,
    get_n_successors_arc [⟨1, "a"⟩, ⟨3, "b"⟩, ⟨6, "c"⟩] 4 2
      (by decide) (by decide) (by decide)⟩

theorem pyInt_reverse_ofDigits :
    ∀ ds : List Nat, pyInt ds.reverse = Nat.ofDigits 10 ds := by
  intro ds
  induction ds with
  | nil => rfl
  | cons d ds ih =>
    show pyInt ((d :: ds).reverse) = Nat.ofDigits 10 (d :: ds)
    rw [List.reverse_cons]
    unfold pyInt
    rw [List.foldl_append]
    unfold pyInt at ih
    rw [ih, Nat.ofDigits_cons]
    simp only [List.foldl_cons, List.foldl_nil]
    push_cast
    ring

theorem pyInt_pyStr (n : Nat) : pyInt (pyStr n) = n := by
  unfold pyStr
  by_cases h : n = 0
  · subst h
    rfl
  · rw [if_neg h, pyInt_reverse_ofDigits, Nat.ofDigits_digits]

/-- C8 (Round-trip).  For every vector clock `C`,
`from_dict(to_dict(C))` equals `C` — literally entry by entry after the
stringified integer keys are re-parsed — and in particular under the
code's vector-clock equality (missing entries read as zero). -/
theorem vector_clock_round_trip (c : Clock) :
    from_dict (to_dict c) = c ∧ vcEq (from_dict (to_dict c)) c = true := by
  have h : from_dict (to_dict c) = c := by
    induction c with
    | nil => rfl
    | cons kv rest ih =>
      obtain ⟨k, v⟩ := kv
      show (pyInt (pyStr k), v) :: from_dict (to_dict rest) = (k, v) :: rest
      rw [pyInt_pyStr, ih]
  refine ⟨h, ?_⟩
  rw [h]
  exact (vcEq_iff c c).mpr fun _ => rfl

end ChordSpec
